import Mathlib

/-!
Verification of the SplitPay settlement engine.

The settlement solver `min_cash_flow_settlements` from `app/utils/helpers.py`
is embedded shallowly: Python `dict[str, float]` inputs become association
lists `List (String × ℚ)` (Python dicts preserve insertion order), currency
amounts become exact rationals, Python's `round(x, 2)` becomes `round2`
(round-half-to-even at two decimal places, Python's documented rounding mode),
and the in-place while loop over the two sorted work lists becomes a step
function `settleStep` on an explicit state, iterated with fuel
`|debtors| + |creditors|` (a bound proven sufficient below).

Python's stable `list.sort(key=..., reverse=True)` is embedded as a stable
insertion sort by descending amount; any two stable sorts under the same
comparison agree, so this matches CPython's Timsort output.
-/

attribute [local semireducible] Rat.add Rat.sub Rat.mul Rat.inv Rat.ofScientific

namespace SplitPay

/-- Python's built-in `round` to an integer: round half to even. -/
def pyRound (x : ℚ) : ℤ :=
  let n := ⌊x⌋
  let f := x - (n : ℚ)
  if f < 1/2 then n
  else if 1/2 < f then n + 1
  else if n % 2 = 0 then n else n + 1

/-- Python's `round(x, 2)`: round to two decimal places. -/
def round2 (x : ℚ) : ℚ :=
  ((pyRound (x * 100) : ℤ) : ℚ) / 100

/-- The `eps = 0.01` tolerance of `min_cash_flow_settlements` ("cents"). -/
def eps : ℚ := 1/100

/-- An amount is an exact multiple of one cent ("rounded to two decimals"). -/
def IsCents (v : ℚ) : Prop := (v * 100).den = 1

instance isCentsDecidable (v : ℚ) : Decidable (IsCents v) :=
  inferInstanceAs (Decidable ((v * 100).den = 1))

/-- Line `b = {k: (0.0 if abs(v) < eps else round(v, 2)) for k, v in balances.items()}`
for a single value. -/
def cleanValue (v : ℚ) : ℚ :=
  if |v| < eps then 0 else round2 v

/-- The cleaned balance mapping `b` of `min_cash_flow_settlements`. -/
def cleanBalances (balances : List (String × ℚ)) : List (String × ℚ) :=
  balances.map (fun kv => (kv.1, cleanValue kv.2))

/-- Line `creditors = [(k, v) for k, v in b.items() if v > 0]`. -/
def creditorsOf (balances : List (String × ℚ)) : List (String × ℚ) :=
  (cleanBalances balances).filter (fun kv => decide (0 < kv.2))

/-- Line `debtors = [(k, -v) for k, v in b.items() if v < 0]` (stored positive). -/
def debtorsOf (balances : List (String × ℚ)) : List (String × ℚ) :=
  ((cleanBalances balances).filter (fun kv => decide (kv.2 < 0))).map
    (fun kv => (kv.1, -kv.2))

/-- Python's stable `xs.sort(key=lambda x: x[1], reverse=True)`. -/
def sortDesc (l : List (String × ℚ)) : List (String × ℚ) :=
  List.insertionSort (fun a b => b.2 ≤ a.2) l

/-- The mutable state of the matching while loop: the two work lists, the two
cursors `i`, `j`, and the accumulated result `res`. -/
structure SettleState where
  debtors : List (String × ℚ)
  creditors : List (String × ℚ)
  i : ℕ
  j : ℕ
  res : List (String × String × ℚ)

/-- One iteration of the while-loop body of `min_cash_flow_settlements`
(lines 155-173 of `app/utils/helpers.py`). -/
def settleStep (s : SettleState) : SettleState :=
  let d := s.debtors.getD s.i ("", 0)
  let c := s.creditors.getD s.j ("", 0)
  let pay := round2 (min d.2 c.2)
  let res := if eps ≤ pay then s.res ++ [(d.1, c.1, pay)] else s.res
  let d_rem := round2 (d.2 - pay)
  let c_rem := round2 (c.2 - pay)
  { debtors := s.debtors.set s.i (d.1, d_rem)
    creditors := s.creditors.set s.j (c.1, c_rem)
    i := if d_rem ≤ eps then s.i + 1 else s.i
    j := if c_rem ≤ eps then s.j + 1 else s.j
    res := res }

/-- The while loop `while i < len(debtors) and j < len(creditors)`, iterated
with explicit fuel.  Fuel `|debtors| + |creditors|` is proven sufficient
(`settleRun_terminates` below), so the function with that fuel is the loop. -/
def settleRun : ℕ → SettleState → SettleState
  | 0, s => s
  | n + 1, s =>
    if s.i < s.debtors.length ∧ s.j < s.creditors.length then
      settleRun n (settleStep s)
    else s

/-- The initial loop state: both lists sorted descending, cursors at 0. -/
def initState (balances : List (String × ℚ)) : SettleState :=
  { debtors := sortDesc (debtorsOf balances)
    creditors := sortDesc (creditorsOf balances)
    i := 0
    j := 0
    res := [] }

/-- `min_cash_flow_settlements` from `app/utils/helpers.py` (lines 130-175). -/
def min_cash_flow_settlements (balances : List (String × ℚ)) :
    List (String × String × ℚ) :=
  let creditors := creditorsOf balances
  let debtors := debtorsOf balances
  if creditors = [] ∨ debtors = [] then []
  else
    (settleRun ((sortDesc debtors).length + (sortDesc creditors).length)
      (initState balances)).res

/-- Sum of the amounts of a settlement sequence. -/
def resAmtSum (res : List (String × String × ℚ)) : ℚ :=
  (res.map (fun e => e.2.2)).sum

/-- Sum of the amounts of a work list. -/
def amtSum (l : List (String × ℚ)) : ℚ :=
  (l.map (fun kv => kv.2)).sum

/-- Total amount a given member pays as debtor across a settlement sequence. -/
def debtorTotal : List (String × String × ℚ) → String → ℚ
  | [], _ => 0
  | e :: l, nm => (if e.1 = nm then e.2.2 else 0) + debtorTotal l nm

/-- Total amount a given member receives as creditor across a settlement
sequence. -/
def creditorTotal : List (String × String × ℚ) → String → ℚ
  | [], _ => 0
  | e :: l, nm => (if e.2.1 = nm then e.2.2 else 0) + creditorTotal l nm

/-- Remaining amount held under a given name in a work list. -/
def nameAmt : List (String × ℚ) → String → ℚ
  | [], _ => 0
  | kv :: l, nm => (if kv.1 = nm then kv.2 else 0) + nameAmt l nm

/-- The `round(sum(v for v in balances.values() if v > 0), 2)` of the spec's
conservation property. -/
def posTotal (balances : List (String × ℚ)) : ℚ :=
  round2 (((balances.filter (fun kv => decide (0 < kv.2))).map (fun kv => kv.2)).sum)

/-- The `round(sum(-v for v in balances.values() if v < 0), 2)` of the spec's
conservation property. -/
def negTotal (balances : List (String × ℚ)) : ℚ :=
  round2 (((balances.filter (fun kv => decide (kv.2 < 0))).map (fun kv => -kv.2)).sum)

/-! ### The loop invariant -/

/-- Invariant of the matching loop: each work list splits into a processed
region (everything at most `eps`, and nonnegative) followed by a pending
region (everything at least `eps`), the cursor sitting at the border; and
every amount is an exact cent amount. -/
structure SettleInv (s : SettleState) : Prop where
  dSplit : ∃ A B, s.debtors = A ++ B ∧ s.i = A.length ∧
      (∀ p ∈ A, 0 ≤ p.2 ∧ p.2 ≤ eps) ∧ (∀ p ∈ B, eps ≤ p.2)
  cSplit : ∃ A B, s.creditors = A ++ B ∧ s.j = A.length ∧
      (∀ p ∈ A, 0 ≤ p.2 ∧ p.2 ≤ eps) ∧ (∀ p ∈ B, eps ≤ p.2)
  dCents : ∀ p ∈ s.debtors, IsCents p.2
  cCents : ∀ p ∈ s.creditors, IsCents p.2

/-- Everything one loop iteration does, packaged: the payment appended, the
invariant re-established, and the exact bookkeeping of all sums. -/
structure StepFacts (s : SettleState) (dn cn : String) (pay : ℚ) : Prop where
  payEps : eps ≤ pay
  payCents : IsCents pay
  resEq : (settleStep s).res = s.res ++ [(dn, cn, pay)]
  inv : SettleInv (settleStep s)
  dNames : (settleStep s).debtors.map Prod.fst = s.debtors.map Prod.fst
  cNames : (settleStep s).creditors.map Prod.fst = s.creditors.map Prod.fst
  progress : s.i + s.j + 1 ≤ (settleStep s).i + (settleStep s).j
  iLe : (settleStep s).i ≤ s.i + 1
  jLe : (settleStep s).j ≤ s.j + 1
  iGe : s.i ≤ (settleStep s).i
  jGe : s.j ≤ (settleStep s).j
  dSum : amtSum (settleStep s).debtors = amtSum s.debtors - pay
  cSum : amtSum (settleStep s).creditors = amtSum s.creditors - pay
  dNameMem : dn ∈ s.debtors.map Prod.fst
  cNameMem : cn ∈ s.creditors.map Prod.fst
  dNameAmt : ∀ nm, nameAmt (settleStep s).debtors nm
      = nameAmt s.debtors nm - (if dn = nm then pay else 0)
  cNameAmt : ∀ nm, nameAmt (settleStep s).creditors nm
      = nameAmt s.creditors nm - (if cn = nm then pay else 0)

/-!
### The duplicate solver in `app/commands/splits.py`

`_min_cash_flow_settlements` (lines 93-138 of `app/commands/splits.py`) is a
second implementation of the settlement solver; it is embedded below in its
own namespace, line for line, from its own source.  (`Splits` stands in for
the leading underscore of the Python name, which Lean spells differently.)
The loop state type `SplitPay.SettleState` is shared: both while loops have
the same local variables.
-/

namespace Splits

/-- Python's built-in `round` to an integer, as used by
`_min_cash_flow_settlements`. -/
def pyRound (x : ℚ) : ℤ :=
  let n := ⌊x⌋
  let f := x - (n : ℚ)
  if f < 1/2 then n
  else if 1/2 < f then n + 1
  else if n % 2 = 0 then n else n + 1

/-- Python's `round(x, 2)` in `_min_cash_flow_settlements`. -/
def round2 (x : ℚ) : ℚ :=
  ((pyRound (x * 100) : ℤ) : ℚ) / 100

/-- The `eps = 0.01` of `_min_cash_flow_settlements`. -/
def eps : ℚ := 1/100

/-- The comprehension value of line 102 of `app/commands/splits.py`. -/
def cleanValue (v : ℚ) : ℚ :=
  if |v| < eps then 0 else round2 v

/-- The cleaned mapping `b` (line 102 of `app/commands/splits.py`). -/
def cleanBalances (balances : List (String × ℚ)) : List (String × ℚ) :=
  balances.map (fun kv => (kv.1, cleanValue kv.2))

/-- Line 103 of `app/commands/splits.py`. -/
def creditorsOf (balances : List (String × ℚ)) : List (String × ℚ) :=
  (cleanBalances balances).filter (fun kv => decide (0 < kv.2))

/-- Line 104 of `app/commands/splits.py`. -/
def debtorsOf (balances : List (String × ℚ)) : List (String × ℚ) :=
  ((cleanBalances balances).filter (fun kv => decide (kv.2 < 0))).map
    (fun kv => (kv.1, -kv.2))

/-- The stable descending sorts of lines 111-112 of `app/commands/splits.py`. -/
def sortDesc (l : List (String × ℚ)) : List (String × ℚ) :=
  List.insertionSort (fun a b => b.2 ≤ a.2) l

/-- The while-loop body of `_min_cash_flow_settlements`
(lines 117-136 of `app/commands/splits.py`). -/
def settleStep (s : SettleState) : SettleState :=
  let d := s.debtors.getD s.i ("", 0)
  let c := s.creditors.getD s.j ("", 0)
  let pay := round2 (min d.2 c.2)
  let res := if eps ≤ pay then s.res ++ [(d.1, c.1, pay)] else s.res
  let d_rem := round2 (d.2 - pay)
  let c_rem := round2 (c.2 - pay)
  { debtors := s.debtors.set s.i (d.1, d_rem)
    creditors := s.creditors.set s.j (c.1, c_rem)
    i := if d_rem ≤ eps then s.i + 1 else s.i
    j := if c_rem ≤ eps then s.j + 1 else s.j
    res := res }

/-- The while loop of `_min_cash_flow_settlements`, fueled. -/
def settleRun : ℕ → SettleState → SettleState
  | 0, s => s
  | n + 1, s =>
    if s.i < s.debtors.length ∧ s.j < s.creditors.length then
      settleRun n (settleStep s)
    else s

/-- The initial loop state of `_min_cash_flow_settlements`. -/
def initState (balances : List (String × ℚ)) : SettleState :=
  { debtors := sortDesc (debtorsOf balances)
    creditors := sortDesc (creditorsOf balances)
    i := 0
    j := 0
    res := [] }

/-- `_min_cash_flow_settlements` from `app/commands/splits.py`
(lines 93-138). -/
def min_cash_flow_settlements (balances : List (String × ℚ)) :
    List (String × String × ℚ) :=
  let creditors := creditorsOf balances
  let debtors := debtorsOf balances
  if creditors = [] ∨ debtors = [] then []
  else
    (settleRun ((sortDesc debtors).length + (sortDesc creditors).length)
      (initState balances)).res

end Splits

/-!
### The balance aggregator

The net-balance computation of `split show` (`app/commands/splits.py`,
lines 23-48) and `show_balances` (`cli.py`, lines 333-369) is embedded over a
flat ledger mirroring the ORM tables of `app/models.py` (columns not touched
by the aggregation queries — ids, descriptions, dates — are omitted).
-/

/-- Row of the `expenses` table (queried columns). -/
structure Expense where
  id : ℕ
  amount : ℚ
  paid_by_id : ℕ
  group_id : ℕ

/-- Row of the `expense_splits` table (queried columns). -/
structure ExpenseSplit where
  expense_id : ℕ
  member_id : ℕ
  share_amount : ℚ

/-- Row of the `payments` table (queried columns). -/
structure Payment where
  from_id : ℕ
  to_id : ℕ
  amount : ℚ
  group_id : ℕ

/-- The ledger: the three tables the aggregation reads. -/
structure Ledger where
  expenses : List Expense
  expense_splits : List ExpenseSplit
  payments : List Payment

/-- `total_paid`: sum of `Expense.amount` where `paid_by_id = m` and
`group_id = g` (coalesced to 0). -/
def total_paid (L : Ledger) (g m : ℕ) : ℚ :=
  ((L.expenses.filter (fun e => decide (e.paid_by_id = m ∧ e.group_id = g))).map
    (fun e => e.amount)).sum

/-- `total_owed`: sum of `ExpenseSplit.share_amount` joined to `Expense`,
where `member_id = m` and the joined expense has `group_id = g`. -/
def total_owed (L : Ledger) (g m : ℕ) : ℚ :=
  ((L.expense_splits.filter (fun s => decide (s.member_id = m)
      && L.expenses.any (fun e => decide (e.id = s.expense_id)
        && decide (e.group_id = g)))).map
    (fun s => s.share_amount)).sum

/-- `repaid` / `repayments_made`: sum of `Payment.amount` where
`from_id = m` and `group_id = g`. -/
def repaid (L : Ledger) (g m : ℕ) : ℚ :=
  ((L.payments.filter (fun p => decide (p.from_id = m ∧ p.group_id = g))).map
    (fun p => p.amount)).sum

/-- `received` / `repayments_received`: sum of `Payment.amount` where
`to_id = m` and `group_id = g`. -/
def received (L : Ledger) (g m : ℕ) : ℚ :=
  ((L.payments.filter (fun p => decide (p.to_id = m ∧ p.group_id = g))).map
    (fun p => p.amount)).sum

/-- The net balance of `split show` (`app/commands/splits.py`, line 46):
`net = (total_paid + repaid) - (total_owed + received)`. -/
def net (L : Ledger) (g m : ℕ) : ℚ :=
  (total_paid L g m + repaid L g m) - (total_owed L g m + received L g m)

/-- The net balance of `show_balances` (`cli.py`, line 368):
`net_balance = round((total_paid + repayments_made) - (total_owed +
repayments_received), 2)`. -/
def net_balance (L : Ledger) (g m : ℕ) : ℚ :=
  round2 ((total_paid L g m + repaid L g m) - (total_owed L g m + received L g m))

/-- The formula claimed by the spec's input-supplier contract, written
directly over the ledger: `(total paid + total received-as-repayment) −
(total owed-via-splits + total repayments made)`. -/
def claimNetFormula (L : Ledger) (g m : ℕ) : ℚ :=
  (L.expenses.map (fun e => if e.paid_by_id = m ∧ e.group_id = g then e.amount else 0)).sum
  + (L.payments.map (fun p => if p.to_id = m ∧ p.group_id = g then p.amount else 0)).sum
  - (L.expense_splits.map (fun s => if s.member_id = m
      ∧ (L.expenses.any (fun e => decide (e.id = s.expense_id)
          && decide (e.group_id = g))) = true then s.share_amount else 0)).sum
  - (L.payments.map (fun p => if p.from_id = m ∧ p.group_id = g then p.amount else 0)).sum

/-- The amended formula, written directly over the ledger:
`(total paid + total repayments made) − (total owed-via-splits + total
received-as-repayment)`. -/
def amendedNetFormula (L : Ledger) (g m : ℕ) : ℚ :=
  (L.expenses.map (fun e => if e.paid_by_id = m ∧ e.group_id = g then e.amount else 0)).sum
  + (L.payments.map (fun p => if p.from_id = m ∧ p.group_id = g then p.amount else 0)).sum
  - (L.expense_splits.map (fun s => if s.member_id = m
      ∧ (L.expenses.any (fun e => decide (e.id = s.expense_id)
          && decide (e.group_id = g))) = true then s.share_amount else 0)).sum
  - (L.payments.map (fun p => if p.to_id = m ∧ p.group_id = g then p.amount else 0)).sum

/-! ### Arithmetic of cent amounts and of Python rounding -/

theorem isCents_iff {v : ℚ} : IsCents v ↔ ∃ n : ℤ, v = (n : ℚ) / 100 := by
  constructor
  · intro h
    refine ⟨(v * 100).num, ?_⟩
    have h2 : ((v * 100).num : ℚ) = v * 100 := (Rat.den_eq_one_iff _).mp h
    rw [h2]
    ring
  · rintro ⟨n, rfl⟩
    unfold IsCents
    have h1 : (n : ℚ) / 100 * 100 = (n : ℚ) := by
      field_simp
    rw [h1, Rat.den_intCast]

theorem pyRound_intCast (n : ℤ) : pyRound (n : ℚ) = n := by
  unfold pyRound
  rw [Int.floor_intCast]
  norm_num

theorem round2_isCents (x : ℚ) : IsCents (round2 x) :=
  isCents_iff.mpr ⟨pyRound (x * 100), rfl⟩

theorem round2_eq_self {v : ℚ} (h : IsCents v) : round2 v = v := by
  obtain ⟨n, rfl⟩ := isCents_iff.mp h
  unfold round2
  have h1 : (n : ℚ) / 100 * 100 = (n : ℚ) := by field_simp
  rw [h1, pyRound_intCast]

theorem isCents_zero : IsCents 0 :=
  isCents_iff.mpr ⟨0, by norm_num⟩

theorem IsCents.sub {a b : ℚ} (ha : IsCents a) (hb : IsCents b) : IsCents (a - b) := by
  obtain ⟨m, rfl⟩ := isCents_iff.mp ha
  obtain ⟨n, rfl⟩ := isCents_iff.mp hb
  exact isCents_iff.mpr ⟨m - n, by push_cast; ring⟩

theorem IsCents.add {a b : ℚ} (ha : IsCents a) (hb : IsCents b) : IsCents (a + b) := by
  obtain ⟨m, rfl⟩ := isCents_iff.mp ha
  obtain ⟨n, rfl⟩ := isCents_iff.mp hb
  exact isCents_iff.mpr ⟨m + n, by push_cast; ring⟩

theorem IsCents.neg {a : ℚ} (ha : IsCents a) : IsCents (-a) := by
  obtain ⟨m, rfl⟩ := isCents_iff.mp ha
  exact isCents_iff.mpr ⟨-m, by push_cast; ring⟩

theorem IsCents.min {a b : ℚ} (ha : IsCents a) (hb : IsCents b) : IsCents (min a b) := by
  rcases le_total a b with h | h
  · rwa [min_eq_left h]
  · rwa [min_eq_right h]

theorem eps_isCents : IsCents eps :=
  isCents_iff.mpr ⟨1, by norm_num [eps]⟩

theorem IsCents.eps_le {v : ℚ} (h : IsCents v) (hv : 0 < v) : eps ≤ v := by
  obtain ⟨n, rfl⟩ := isCents_iff.mp h
  have hn : (0 : ℚ) < (n : ℚ) := by
    by_contra hc
    push_neg at hc
    have : (n : ℚ) / 100 ≤ 0 := by linarith
    linarith
  have hn1 : (1 : ℤ) ≤ n := by exact_mod_cast hn
  have hn1q : (1 : ℚ) ≤ (n : ℚ) := by exact_mod_cast hn1
  unfold eps
  linarith

theorem IsCents.eq_zero_of_abs_lt {v : ℚ} (h : IsCents v) (hv : |v| < eps) : v = 0 := by
  obtain ⟨n, rfl⟩ := isCents_iff.mp h
  rw [abs_div] at hv
  have habs : |(n : ℚ)| / 100 < 1 / 100 := by
    have h100 : |(100 : ℚ)| = 100 := by norm_num
    rw [h100] at hv
    simpa [eps] using hv
  have h1 : |(n : ℚ)| < 1 := by linarith
  have h2 : |n| < 1 := by exact_mod_cast h1
  have h3 : n = 0 := Int.abs_lt_one_iff.mp h2
  rw [h3]
  norm_num

theorem IsCents.sum {l : List ℚ} (h : ∀ v ∈ l, IsCents v) : IsCents l.sum := by
  induction l with
  | nil => simpa using isCents_zero
  | cons a l ih =>
    rw [List.sum_cons]
    exact (h a (List.mem_cons_self a l)).add
      (ih (fun v hv => h v (List.mem_cons_of_mem a hv)))

theorem pyRound_nonneg {x : ℚ} (hx : 0 ≤ x) : 0 ≤ pyRound x := by
  unfold pyRound
  have hn : (0 : ℤ) ≤ ⌊x⌋ := Int.floor_nonneg.mpr hx
  dsimp only
  split_ifs <;> omega

theorem pyRound_nonpos {x : ℚ} (hx : x ≤ 0) : pyRound x ≤ 0 := by
  unfold pyRound
  have hfl : (⌊x⌋ : ℚ) ≤ x := Int.floor_le x
  dsimp only
  split_ifs with h1 h2 h3
  · exact Int.floor_nonpos hx
  · have hlt : (⌊x⌋ : ℚ) < -(1/2) := by linarith
    have hlt0 : (⌊x⌋ : ℚ) < 0 := by linarith
    have : ⌊x⌋ < 0 := by exact_mod_cast hlt0
    omega
  · exact Int.floor_nonpos hx
  · have heq : x - (⌊x⌋ : ℚ) = 1/2 := le_antisymm (not_lt.mp h2) (not_lt.mp h1)
    have hle : (⌊x⌋ : ℚ) ≤ -(1/2) := by linarith
    have hlt0 : (⌊x⌋ : ℚ) < 0 := by linarith
    have : ⌊x⌋ < 0 := by exact_mod_cast hlt0
    omega

theorem round2_nonneg {x : ℚ} (hx : 0 ≤ x) : 0 ≤ round2 x := by
  unfold round2
  have h : (0 : ℤ) ≤ pyRound (x * 100) := pyRound_nonneg (by positivity)
  have hq : (0 : ℚ) ≤ (pyRound (x * 100) : ℚ) := by exact_mod_cast h
  positivity

theorem round2_nonpos {x : ℚ} (hx : x ≤ 0) : round2 x ≤ 0 := by
  unfold round2
  have h : pyRound (x * 100) ≤ 0 := pyRound_nonpos (by nlinarith)
  have hq : (pyRound (x * 100) : ℚ) ≤ 0 := by exact_mod_cast h
  linarith

theorem cleanValue_isCents (v : ℚ) : IsCents (cleanValue v) := by
  unfold cleanValue
  split_ifs
  · exact isCents_zero
  · exact round2_isCents v

theorem cleanValue_eq_self {v : ℚ} (h : IsCents v) : cleanValue v = v := by
  unfold cleanValue
  split_ifs with h1
  · exact (h.eq_zero_of_abs_lt h1).symm
  · exact round2_eq_self h

theorem cleanValue_nonneg {v : ℚ} (hv : 0 ≤ v) : 0 ≤ cleanValue v := by
  unfold cleanValue
  split_ifs
  · exact le_refl 0
  · exact round2_nonneg hv

theorem cleanValue_nonpos {v : ℚ} (hv : v ≤ 0) : cleanValue v ≤ 0 := by
  unfold cleanValue
  split_ifs
  · exact le_refl 0
  · exact round2_nonpos hv

theorem cleanBalances_eq_self {b : List (String × ℚ)}
    (h : ∀ kv ∈ b, IsCents kv.2) : cleanBalances b = b := by
  unfold cleanBalances
  induction b with
  | nil => rfl
  | cons kv l ih =>
    rw [List.map_cons, cleanValue_eq_self (h kv (List.mem_cons_self kv l))]
    rw [ih (fun p hp => h p (List.mem_cons_of_mem kv hp))]

/-! ### List bookkeeping lemmas -/

theorem getD_append_length {α : Type} (A : List α) (d : α) (B : List α) (x : α) :
    (A ++ d :: B).getD A.length x = d := by
  induction A with
  | nil => rfl
  | cons a A ih => simpa using ih

theorem set_append_length {α : Type} (A : List α) (d : α) (B : List α) (y : α) :
    (A ++ d :: B).set A.length y = A ++ y :: B := by
  induction A with
  | nil => rfl
  | cons a A ih => simpa using ih

theorem amtSum_append (l1 l2 : List (String × ℚ)) :
    amtSum (l1 ++ l2) = amtSum l1 + amtSum l2 := by
  simp [amtSum]

theorem amtSum_cons (kv : String × ℚ) (l : List (String × ℚ)) :
    amtSum (kv :: l) = kv.2 + amtSum l := by
  simp [amtSum]

theorem resAmtSum_append (l1 l2 : List (String × String × ℚ)) :
    resAmtSum (l1 ++ l2) = resAmtSum l1 + resAmtSum l2 := by
  simp [resAmtSum]

theorem resAmtSum_single (e : String × String × ℚ) :
    resAmtSum [e] = e.2.2 := by
  simp [resAmtSum]

theorem nameAmt_append (l1 l2 : List (String × ℚ)) (nm : String) :
    nameAmt (l1 ++ l2) nm = nameAmt l1 nm + nameAmt l2 nm := by
  induction l1 with
  | nil => simp [nameAmt]
  | cons kv l ih => simp [nameAmt, ih]; ring

theorem debtorTotal_append (l1 l2 : List (String × String × ℚ)) (nm : String) :
    debtorTotal (l1 ++ l2) nm = debtorTotal l1 nm + debtorTotal l2 nm := by
  induction l1 with
  | nil => simp [debtorTotal]
  | cons e l ih => simp [debtorTotal, ih]; ring

theorem creditorTotal_append (l1 l2 : List (String × String × ℚ)) (nm : String) :
    creditorTotal (l1 ++ l2) nm = creditorTotal l1 nm + creditorTotal l2 nm := by
  induction l1 with
  | nil => simp [creditorTotal]
  | cons e l ih => simp [creditorTotal, ih]; ring

theorem nameAmt_eq_sum (l : List (String × ℚ)) (nm : String) :
    nameAmt l nm = (l.map (fun kv => if kv.1 = nm then kv.2 else 0)).sum := by
  induction l with
  | nil => rfl
  | cons kv l ih => simp [nameAmt, ih]

theorem nameAmt_perm {l1 l2 : List (String × ℚ)} (h : l1.Perm l2) (nm : String) :
    nameAmt l1 nm = nameAmt l2 nm := by
  rw [nameAmt_eq_sum, nameAmt_eq_sum]
  exact (h.map _).sum_eq

theorem amtSum_perm {l1 l2 : List (String × ℚ)} (h : l1.Perm l2) :
    amtSum l1 = amtSum l2 := by
  unfold amtSum
  exact (h.map _).sum_eq

theorem nameAmt_nonneg {l : List (String × ℚ)} (h : ∀ kv ∈ l, 0 ≤ kv.2)
    (nm : String) : 0 ≤ nameAmt l nm := by
  induction l with
  | nil => simp [nameAmt]
  | cons kv l ih =>
    have h1 := h kv (List.mem_cons_self kv l)
    have h2 := ih (fun p hp => h p (List.mem_cons_of_mem kv hp))
    simp only [nameAmt]
    split_ifs <;> linarith


theorem settleStep_spec {s : SettleState} (inv : SettleInv s)
    (hg : s.i < s.debtors.length ∧ s.j < s.creditors.length) :
    ∃ dn cn pay, StepFacts s dn cn pay := by
  obtain ⟨A, B, hde, hi, hA, hB⟩ := inv.dSplit
  obtain ⟨C, D, hce, hj, hC, hD⟩ := inv.cSplit
  rcases B with _ | ⟨dE, B'⟩
  · exfalso
    have := hg.1
    rw [hde, hi] at this
    simp at this
  rcases D with _ | ⟨cE, D'⟩
  · exfalso
    have := hg.2
    rw [hce, hj] at this
    simp at this
  have hdmem : dE ∈ s.debtors := by
    rw [hde]
    exact List.mem_append_right A (List.mem_cons_self dE B')
  have hcmem : cE ∈ s.creditors := by
    rw [hce]
    exact List.mem_append_right C (List.mem_cons_self cE D')
  have hdaC : IsCents dE.2 := inv.dCents dE hdmem
  have hcaC : IsCents cE.2 := inv.cCents cE hcmem
  have hdaE : eps ≤ dE.2 := hB dE (List.mem_cons_self dE B')
  have hcaE : eps ≤ cE.2 := hD cE (List.mem_cons_self cE D')
  have hminC : IsCents (min dE.2 cE.2) := hdaC.min hcaC
  have hpayEps : eps ≤ min dE.2 cE.2 := le_min hdaE hcaE
  have hd : s.debtors.getD s.i ("", 0) = dE := by
    rw [hde, hi]
    exact getD_append_length A dE B' ("", 0)
  have hc : s.creditors.getD s.j ("", 0) = cE := by
    rw [hce, hj]
    exact getD_append_length C cE D' ("", 0)
  have hpay : round2 (min dE.2 cE.2) = min dE.2 cE.2 := round2_eq_self hminC
  have hdrem : round2 (dE.2 - min dE.2 cE.2) = dE.2 - min dE.2 cE.2 :=
    round2_eq_self (hdaC.sub hminC)
  have hcrem : round2 (cE.2 - min dE.2 cE.2) = cE.2 - min dE.2 cE.2 :=
    round2_eq_self (hcaC.sub hminC)
  have hstep : settleStep s = SettleState.mk
      (s.debtors.set s.i (dE.1, dE.2 - min dE.2 cE.2))
      (s.creditors.set s.j (cE.1, cE.2 - min dE.2 cE.2))
      (if dE.2 - min dE.2 cE.2 ≤ eps then s.i + 1 else s.i)
      (if cE.2 - min dE.2 cE.2 ≤ eps then s.j + 1 else s.j)
      (s.res ++ [(dE.1, cE.1, min dE.2 cE.2)]) := by
    simp only [settleStep, hd, hc, hdrem, hcrem, hpay, if_pos hpayEps]
  have hdset : s.debtors.set s.i (dE.1, dE.2 - min dE.2 cE.2)
      = A ++ (dE.1, dE.2 - min dE.2 cE.2) :: B' := by
    rw [hde, hi]
    exact set_append_length A dE B' _
  have hcset : s.creditors.set s.j (cE.1, cE.2 - min dE.2 cE.2)
      = C ++ (cE.1, cE.2 - min dE.2 cE.2) :: D' := by
    rw [hce, hj]
    exact set_append_length C cE D' _
  have hdrem0 : 0 ≤ dE.2 - min dE.2 cE.2 := by
    have := min_le_left dE.2 cE.2
    linarith
  have hcrem0 : 0 ≤ cE.2 - min dE.2 cE.2 := by
    have := min_le_right dE.2 cE.2
    linarith
  have hdremC : IsCents (dE.2 - min dE.2 cE.2) := hdaC.sub hminC
  have hcremC : IsCents (cE.2 - min dE.2 cE.2) := hcaC.sub hminC
  refine ⟨dE.1, cE.1, min dE.2 cE.2, ?_⟩
  constructor
  -- payEps
  · exact hpayEps
  -- payCents
  · exact hminC
  -- resEq
  · rw [hstep]
  -- inv
  · constructor
    · -- dSplit
      rw [hstep]
      dsimp only
      rw [hdset]
      by_cases hadv : dE.2 - min dE.2 cE.2 ≤ eps
      · refine ⟨A ++ [(dE.1, dE.2 - min dE.2 cE.2)], B', by simp, ?_, ?_, ?_⟩
        · rw [if_pos hadv]
          simp [hi]
        · intro p hp
          rcases List.mem_append.mp hp with h1 | h1
          · exact hA p h1
          · simp at h1
            rw [h1]
            exact ⟨hdrem0, hadv⟩
        · intro p hp
          exact hB p (List.mem_cons_of_mem dE hp)
      · refine ⟨A, (dE.1, dE.2 - min dE.2 cE.2) :: B', rfl, ?_, hA, ?_⟩
        · rw [if_neg hadv]
          exact hi
        · intro p hp
          rcases List.mem_cons.mp hp with h1 | h1
          · rw [h1]
            exact le_of_lt (not_le.mp hadv)
          · exact hB p (List.mem_cons_of_mem dE h1)
    · -- cSplit
      rw [hstep]
      dsimp only
      rw [hcset]
      by_cases hadv : cE.2 - min dE.2 cE.2 ≤ eps
      · refine ⟨C ++ [(cE.1, cE.2 - min dE.2 cE.2)], D', by simp, ?_, ?_, ?_⟩
        · rw [if_pos hadv]
          simp [hj]
        · intro p hp
          rcases List.mem_append.mp hp with h1 | h1
          · exact hC p h1
          · simp at h1
            rw [h1]
            exact ⟨hcrem0, hadv⟩
        · intro p hp
          exact hD p (List.mem_cons_of_mem cE hp)
      · refine ⟨C, (cE.1, cE.2 - min dE.2 cE.2) :: D', rfl, ?_, hC, ?_⟩
        · rw [if_neg hadv]
          exact hj
        · intro p hp
          rcases List.mem_cons.mp hp with h1 | h1
          · rw [h1]
            exact le_of_lt (not_le.mp hadv)
          · exact hD p (List.mem_cons_of_mem cE h1)
    · -- dCents
      rw [hstep]
      dsimp only
      rw [hdset]
      intro p hp
      rcases List.mem_append.mp hp with h1 | h1
      · exact inv.dCents p (by rw [hde]; exact List.mem_append_left _ h1)
      · rcases List.mem_cons.mp h1 with h2 | h2
        · rw [h2]
          exact hdremC
        · exact inv.dCents p
            (by rw [hde]; exact List.mem_append_right _ (List.mem_cons_of_mem dE h2))
    · -- cCents
      rw [hstep]
      dsimp only
      rw [hcset]
      intro p hp
      rcases List.mem_append.mp hp with h1 | h1
      · exact inv.cCents p (by rw [hce]; exact List.mem_append_left _ h1)
      · rcases List.mem_cons.mp h1 with h2 | h2
        · rw [h2]
          exact hcremC
        · exact inv.cCents p
            (by rw [hce]; exact List.mem_append_right _ (List.mem_cons_of_mem cE h2))
  -- dNames
  · rw [hstep]
    dsimp only
    rw [hdset, hde]
    simp
  -- cNames
  · rw [hstep]
    dsimp only
    rw [hcset, hce]
    simp
  -- progress
  · rw [hstep]
    dsimp only
    rcases le_total dE.2 cE.2 with hmm | hmm
    · have h0 : dE.2 - min dE.2 cE.2 ≤ eps := by
        rw [min_eq_left hmm]
        norm_num [eps]
      rw [if_pos h0]
      split_ifs <;> omega
    · have h0 : cE.2 - min dE.2 cE.2 ≤ eps := by
        rw [min_eq_right hmm]
        norm_num [eps]
      rw [if_pos h0]
      split_ifs <;> omega
  -- iLe
  · rw [hstep]
    dsimp only
    split_ifs <;> omega
  -- jLe
  · rw [hstep]
    dsimp only
    split_ifs <;> omega
  -- iGe
  · rw [hstep]
    dsimp only
    split_ifs <;> omega
  -- jGe
  · rw [hstep]
    dsimp only
    split_ifs <;> omega
  -- dSum
  · rw [hstep]
    dsimp only
    rw [hdset, hde, amtSum_append, amtSum_append, amtSum_cons, amtSum_cons]
    ring
  -- cSum
  · rw [hstep]
    dsimp only
    rw [hcset, hce, amtSum_append, amtSum_append, amtSum_cons, amtSum_cons]
    ring
  -- dNameMem
  · rw [hde]
    simp
  -- cNameMem
  · rw [hce]
    simp
  -- dNameAmt
  · intro nm
    rw [hstep]
    dsimp only
    rw [hdset, hde, nameAmt_append, nameAmt_append]
    simp only [nameAmt]
    split_ifs <;> ring
  -- cNameAmt
  · intro nm
    rw [hstep]
    dsimp only
    rw [hcset, hce, nameAmt_append, nameAmt_append]
    simp only [nameAmt]
    split_ifs <;> ring

/-! ### Running the loop -/

theorem settleRun_of_not_guard (n : ℕ) {s : SettleState}
    (h : ¬(s.i < s.debtors.length ∧ s.j < s.creditors.length)) :
    settleRun n s = s := by
  cases n with
  | zero => rfl
  | succ n => simp [settleRun, h]

theorem settleRun_add (a b : ℕ) (s : SettleState) :
    settleRun (a + b) s = settleRun b (settleRun a s) := by
  induction a generalizing s with
  | zero =>
    rw [Nat.zero_add]
    rfl
  | succ a ih =>
    rw [Nat.succ_add]
    by_cases hg : s.i < s.debtors.length ∧ s.j < s.creditors.length
    · rw [show settleRun (a + b + 1) s = settleRun (a + b) (settleStep s) by
        simp [settleRun, hg]]
      rw [show settleRun (a + 1) s = settleRun a (settleStep s) by
        simp [settleRun, hg]]
      exact ih (settleStep s)
    · rw [settleRun_of_not_guard _ hg, settleRun_of_not_guard _ hg,
        settleRun_of_not_guard _ hg]

theorem settleRun_facts : ∀ (fuel : ℕ) (s : SettleState), SettleInv s →
    SettleInv (settleRun fuel s) ∧
    (settleRun fuel s).debtors.map Prod.fst = s.debtors.map Prod.fst ∧
    (settleRun fuel s).creditors.map Prod.fst = s.creditors.map Prod.fst ∧
    (∃ ext, (settleRun fuel s).res = s.res ++ ext ∧
      ∀ e ∈ ext, eps ≤ e.2.2 ∧ IsCents e.2.2 ∧
        e.1 ∈ s.debtors.map Prod.fst ∧ e.2.1 ∈ s.creditors.map Prod.fst) ∧
    resAmtSum (settleRun fuel s).res + amtSum (settleRun fuel s).debtors
      = resAmtSum s.res + amtSum s.debtors ∧
    resAmtSum (settleRun fuel s).res + amtSum (settleRun fuel s).creditors
      = resAmtSum s.res + amtSum s.creditors ∧
    (∀ nm, debtorTotal (settleRun fuel s).res nm + nameAmt (settleRun fuel s).debtors nm
      = debtorTotal s.res nm + nameAmt s.debtors nm) ∧
    (∀ nm, creditorTotal (settleRun fuel s).res nm
        + nameAmt (settleRun fuel s).creditors nm
      = creditorTotal s.res nm + nameAmt s.creditors nm) := by
  intro fuel
  induction fuel with
  | zero =>
    intro s inv
    exact ⟨inv, rfl, rfl, ⟨[], by simp [settleRun], by simp⟩, rfl, rfl,
      fun _ => rfl, fun _ => rfl⟩
  | succ n ih =>
    intro s inv
    by_cases hg : s.i < s.debtors.length ∧ s.j < s.creditors.length
    · have hrun : settleRun (n + 1) s = settleRun n (settleStep s) := by
        simp [settleRun, hg]
      obtain ⟨dn, cn, pay, F⟩ := settleStep_spec inv hg
      obtain ⟨ih1, ih2, ih3, ⟨ext, ihres, ihext⟩, ih4, ih5, ih6, ih7⟩ :=
        ih (settleStep s) F.inv
      have hresStep : resAmtSum (settleStep s).res = resAmtSum s.res + pay := by
        rw [F.resEq, resAmtSum_append, resAmtSum_single]
      have hdebtStep : ∀ nm, debtorTotal (settleStep s).res nm
          = debtorTotal s.res nm + (if dn = nm then pay else 0) := by
        intro nm
        rw [F.resEq, debtorTotal_append]
        simp [debtorTotal]
      have hcredStep : ∀ nm, creditorTotal (settleStep s).res nm
          = creditorTotal s.res nm + (if cn = nm then pay else 0) := by
        intro nm
        rw [F.resEq, creditorTotal_append]
        simp [creditorTotal]
      rw [hrun]
      refine ⟨ih1, ih2.trans F.dNames, ih3.trans F.cNames,
        ⟨(dn, cn, pay) :: ext, ?_, ?_⟩, ?_, ?_, ?_, ?_⟩
      · rw [ihres, F.resEq, List.append_assoc]
        rfl
      · intro e he
        rcases List.mem_cons.mp he with h1 | h1
        · rw [h1]
          exact ⟨F.payEps, F.payCents, F.dNameMem, F.cNameMem⟩
        · obtain ⟨he1, he2, he3, he4⟩ := ihext e h1
          rw [F.dNames] at he3
          rw [F.cNames] at he4
          exact ⟨he1, he2, he3, he4⟩
      · rw [ih4, hresStep, F.dSum]
        ring
      · rw [ih5, hresStep, F.cSum]
        ring
      · intro nm
        rw [ih6 nm, hdebtStep nm, F.dNameAmt nm]
        ring
      · intro nm
        rw [ih7 nm, hcredStep nm, F.cNameAmt nm]
        ring
    · rw [settleRun_of_not_guard _ hg]
      exact ⟨inv, rfl, rfl, ⟨[], by simp, by simp⟩, rfl, rfl, fun _ => rfl, fun _ => rfl⟩

theorem settleRun_not_guard : ∀ (fuel : ℕ) (s : SettleState), SettleInv s →
    s.debtors.length + s.creditors.length ≤ fuel + s.i + s.j →
    ¬((settleRun fuel s).i < (settleRun fuel s).debtors.length ∧
      (settleRun fuel s).j < (settleRun fuel s).creditors.length) := by
  intro fuel
  induction fuel with
  | zero =>
    intro s _ h hg
    simp only [settleRun] at hg
    omega
  | succ n ih =>
    intro s inv h
    by_cases hg : s.i < s.debtors.length ∧ s.j < s.creditors.length
    · have hrun : settleRun (n + 1) s = settleRun n (settleStep s) := by
        simp [settleRun, hg]
      rw [hrun]
      obtain ⟨dn, cn, pay, F⟩ := settleStep_spec inv hg
      apply ih (settleStep s) F.inv
      have hld : (settleStep s).debtors.length = s.debtors.length := by
        have := congrArg List.length F.dNames
        simpa using this
      have hlc : (settleStep s).creditors.length = s.creditors.length := by
        have := congrArg List.length F.cNames
        simpa using this
      have := F.progress
      omega
    · rw [settleRun_of_not_guard _ hg]
      exact hg

theorem settleRun_res_length : ∀ (fuel : ℕ) (s : SettleState), SettleInv s →
    (s.i < s.debtors.length ∧ s.j < s.creditors.length) →
    (settleRun fuel s).res.length + s.i + s.j + 1
      ≤ s.res.length + s.debtors.length + s.creditors.length := by
  intro fuel
  induction fuel with
  | zero =>
    intro s _ hg
    simp only [settleRun]
    omega
  | succ n ih =>
    intro s inv hg
    have hrun : settleRun (n + 1) s = settleRun n (settleStep s) := by
      simp [settleRun, hg]
    rw [hrun]
    obtain ⟨dn, cn, pay, F⟩ := settleStep_spec inv hg
    have hld : (settleStep s).debtors.length = s.debtors.length := by
      have := congrArg List.length F.dNames
      simpa using this
    have hlc : (settleStep s).creditors.length = s.creditors.length := by
      have := congrArg List.length F.cNames
      simpa using this
    have hres : (settleStep s).res.length = s.res.length + 1 := by
      rw [F.resEq]
      simp
    by_cases hg2 : (settleStep s).i < (settleStep s).debtors.length ∧
        (settleStep s).j < (settleStep s).creditors.length
    · have := ih (settleStep s) F.inv hg2
      have := F.progress
      omega
    · rw [settleRun_of_not_guard _ hg2]
      have := F.progress
      omega

/-! ### The initial state -/

theorem sortDesc_perm (l : List (String × ℚ)) : (sortDesc l).Perm l :=
  List.perm_insertionSort _ l

theorem sortDesc_length (l : List (String × ℚ)) : (sortDesc l).length = l.length :=
  (sortDesc_perm l).length_eq

theorem cleanBalances_keys (b : List (String × ℚ)) :
    (cleanBalances b).map Prod.fst = b.map Prod.fst := by
  unfold cleanBalances
  rw [List.map_map]
  rfl

theorem mem_cleanBalances {b : List (String × ℚ)} {p : String × ℚ} :
    p ∈ cleanBalances b ↔ ∃ v, (p.1, v) ∈ b ∧ p.2 = cleanValue v := by
  unfold cleanBalances
  rw [List.mem_map]
  constructor
  · rintro ⟨kv, hkv, rfl⟩
    exact ⟨kv.2, hkv, rfl⟩
  · rintro ⟨v, hv, hp⟩
    refine ⟨(p.1, v), hv, ?_⟩
    ext
    · rfl
    · exact hp.symm

theorem mem_debtorsOf {b : List (String × ℚ)} {p : String × ℚ} :
    p ∈ debtorsOf b ↔ ∃ w, (p.1, w) ∈ cleanBalances b ∧ w < 0 ∧ p.2 = -w := by
  unfold debtorsOf
  rw [List.mem_map]
  constructor
  · rintro ⟨kv, hkv, rfl⟩
    rw [List.mem_filter] at hkv
    exact ⟨kv.2, hkv.1, by simpa using hkv.2, rfl⟩
  · rintro ⟨w, hw, hneg, hp⟩
    refine ⟨(p.1, w), List.mem_filter.mpr ⟨hw, by simpa using hneg⟩, ?_⟩
    ext
    · rfl
    · exact hp.symm

theorem mem_creditorsOf {b : List (String × ℚ)} {p : String × ℚ} :
    p ∈ creditorsOf b ↔ p ∈ cleanBalances b ∧ 0 < p.2 := by
  unfold creditorsOf
  rw [List.mem_filter]
  simp

theorem debtorsOf_pos {b : List (String × ℚ)} {p : String × ℚ}
    (hp : p ∈ debtorsOf b) : 0 < p.2 ∧ IsCents p.2 := by
  obtain ⟨w, hw, hneg, hp2⟩ := mem_debtorsOf.mp hp
  obtain ⟨v, _, hv⟩ := mem_cleanBalances.mp hw
  have hv2 : w = cleanValue v := hv
  constructor
  · rw [hp2]
    linarith
  · rw [hp2, hv2]
    exact (cleanValue_isCents v).neg

theorem creditorsOf_pos {b : List (String × ℚ)} {p : String × ℚ}
    (hp : p ∈ creditorsOf b) : 0 < p.2 ∧ IsCents p.2 := by
  obtain ⟨hw, hpos⟩ := mem_creditorsOf.mp hp
  obtain ⟨v, _, hv⟩ := mem_cleanBalances.mp hw
  exact ⟨hpos, by rw [hv]; exact cleanValue_isCents v⟩

theorem initState_inv (b : List (String × ℚ)) : SettleInv (initState b) := by
  constructor
  · refine ⟨[], sortDesc (debtorsOf b), rfl, rfl, by simp, ?_⟩
    intro p hp
    have hmem : p ∈ debtorsOf b := (sortDesc_perm _).mem_iff.mp hp
    obtain ⟨hpos, hcents⟩ := debtorsOf_pos hmem
    exact hcents.eps_le hpos
  · refine ⟨[], sortDesc (creditorsOf b), rfl, rfl, by simp, ?_⟩
    intro p hp
    have hmem : p ∈ creditorsOf b := (sortDesc_perm _).mem_iff.mp hp
    obtain ⟨hpos, hcents⟩ := creditorsOf_pos hmem
    exact hcents.eps_le hpos
  · intro p hp
    exact (debtorsOf_pos ((sortDesc_perm _).mem_iff.mp hp)).2
  · intro p hp
    exact (creditorsOf_pos ((sortDesc_perm _).mem_iff.mp hp)).2

theorem eq_of_nodup_keys {l : List (String × ℚ)} (h : (l.map Prod.fst).Nodup)
    {k : String} {x y : ℚ} (h1 : (k, x) ∈ l) (h2 : (k, y) ∈ l) : x = y := by
  induction l with
  | nil => cases h1
  | cons p l ih =>
    rw [List.map_cons, List.nodup_cons] at h
    rcases List.mem_cons.mp h1 with e1 | e1 <;> rcases List.mem_cons.mp h2 with e2 | e2
    · rw [← e1] at e2
      exact (Prod.mk.injEq _ _ _ _ ▸ e2).2.symm
    · exfalso
      apply h.1
      have : k = p.1 := by rw [← e1]
      rw [← this]
      exact List.mem_map.mpr ⟨(k, y), e2, rfl⟩
    · exfalso
      apply h.1
      have : k = p.1 := by rw [← e2]
      rw [← this]
      exact List.mem_map.mpr ⟨(k, x), e1, rfl⟩
    · exact ih h.2 e1 e2

theorem debtor_creditor_names_disjoint {b : List (String × ℚ)}
    (h : (b.map Prod.fst).Nodup) {nm : String}
    (hd : nm ∈ (debtorsOf b).map Prod.fst)
    (hc : nm ∈ (creditorsOf b).map Prod.fst) : False := by
  obtain ⟨pd, hpd, hpd1⟩ := List.mem_map.mp hd
  obtain ⟨pc, hpc, hpc1⟩ := List.mem_map.mp hc
  obtain ⟨w, hw, hwneg, _⟩ := mem_debtorsOf.mp hpd
  obtain ⟨hcmem, hcpos⟩ := mem_creditorsOf.mp hpc
  have hkeys : ((cleanBalances b).map Prod.fst).Nodup := by
    rw [cleanBalances_keys]
    exact h
  have hpc2 : (pd.1, pc.2) ∈ cleanBalances b := by
    have : pc = (pd.1, pc.2) := by
      ext
      · rw [hpc1, hpd1]
      · rfl
    rw [← this]
    exact hcmem
  have := eq_of_nodup_keys hkeys hw hpc2
  rw [← this] at hcpos
  linarith

theorem solver_def (b : List (String × ℚ)) : min_cash_flow_settlements b =
    if creditorsOf b = [] ∨ debtorsOf b = [] then []
    else (settleRun ((sortDesc (debtorsOf b)).length + (sortDesc (creditorsOf b)).length)
      (initState b)).res := rfl

theorem initState_res (b : List (String × ℚ)) : (initState b).res = [] := rfl

/-! ### Claim theorems: output shape -/

/-- C2: the solver applied to `{"A": -25.0, "B": 10.0, "C": 10.0, "D": 5.0}`
returns exactly `[("A","B",10.0), ("A","C",10.0), ("A","D",5.0)]`: the single
debtor drains the creditors in descending amount order. -/
theorem solve_unbalanced_cardinality :
    min_cash_flow_settlements [("A", -25), ("B", 10), ("C", 10), ("D", 5)]
      = [("A", "B", 10), ("A", "C", 10), ("A", "D", 5)] := by
  decide

/-- C7: every entry of the settlement sequence has a strictly positive amount,
at least `0.01` (= `eps`), and that amount is an exact two-decimal-place
amount. -/
theorem settlement_amount_positive (b : List (String × ℚ)) :
    ∀ e ∈ min_cash_flow_settlements b, 0 < e.2.2 ∧ eps ≤ e.2.2 ∧ IsCents e.2.2 := by
  intro e he
  by_cases hc : creditorsOf b = [] ∨ debtorsOf b = []
  · rw [solver_def, if_pos hc] at he
    cases he
  · rw [solver_def, if_neg hc] at he
    obtain ⟨_, _, _, ⟨ext, hres, hext⟩, _⟩ :=
      settleRun_facts ((sortDesc (debtorsOf b)).length + (sortDesc (creditorsOf b)).length)
        (initState b) (initState_inv b)
    rw [initState_res] at hres
    rw [hres] at he
    rw [List.nil_append] at he
    obtain ⟨h1, h2, _, _⟩ := hext e he
    refine ⟨lt_of_lt_of_le (by norm_num [eps]) h1, h1, h2⟩

/-- Witness for C7 at a concrete input. -/
theorem settlement_amount_positive_witness :
    ("A", "B", (10 : ℚ)) ∈ min_cash_flow_settlements [("A", -10), ("B", 10)] ∧
      (0 < (10 : ℚ) ∧ eps ≤ (10 : ℚ) ∧ IsCents (10 : ℚ)) :=
  ⟨by decide, settlement_amount_positive [("A", -10), ("B", 10)] ("A", "B", (10 : ℚ))
    (by decide)⟩

/-- C8: when the input mapping has distinct member keys (as a Python dict
always does), no settlement entry transfers money from a member to
themself. -/
theorem settlement_no_self_transfer (b : List (String × ℚ))
    (h : (b.map Prod.fst).Nodup) :
    ∀ e ∈ min_cash_flow_settlements b, e.1 ≠ e.2.1 := by
  intro e he
  by_cases hc : creditorsOf b = [] ∨ debtorsOf b = []
  · rw [solver_def, if_pos hc] at he
    cases he
  · rw [solver_def, if_neg hc] at he
    obtain ⟨_, _, _, ⟨ext, hres, hext⟩, _⟩ :=
      settleRun_facts ((sortDesc (debtorsOf b)).length + (sortDesc (creditorsOf b)).length)
        (initState b) (initState_inv b)
    rw [initState_res] at hres
    rw [hres] at he
    rw [List.nil_append] at he
    obtain ⟨_, _, h3, h4⟩ := hext e he
    intro heq
    have hd : e.1 ∈ (debtorsOf b).map Prod.fst :=
      (((sortDesc_perm (debtorsOf b)).map Prod.fst).mem_iff).mp h3
    have hcm : e.2.1 ∈ (creditorsOf b).map Prod.fst :=
      (((sortDesc_perm (creditorsOf b)).map Prod.fst).mem_iff).mp h4
    rw [← heq] at hcm
    exact debtor_creditor_names_disjoint h hd hcm

/-- Witness for C8 at a concrete input. -/
theorem settlement_no_self_transfer_witness :
    (([("A", (-10 : ℚ)), ("B", 10)].map Prod.fst).Nodup ∧
      ("A", "B", (10 : ℚ)) ∈ min_cash_flow_settlements [("A", -10), ("B", 10)]) ∧
      ("A", "B", (10 : ℚ)).1 ≠ ("A", "B", (10 : ℚ)).2.1 :=
  ⟨⟨by decide, by decide⟩, settlement_no_self_transfer [("A", -10), ("B", 10)]
    (by decide) ("A", "B", (10 : ℚ)) (by decide)⟩

/-- C4 as stated fails in the degenerate case in which both partitions are
empty: the bound `|debtors| + |creditors| - 1` is then `-1`, and the (empty)
output has `0 ≥ 0 > -1` entries. -/
theorem settlement_length_bound_cx :
    ¬ (((min_cash_flow_settlements [("A", 0)]).length : ℤ)
      ≤ ((debtorsOf [("A", 0)]).length : ℤ) + ((creditorsOf [("A", 0)]).length : ℤ) - 1) := by
  decide

/-- C4 amended: the settlement sequence has at most
`max (|debtors| + |creditors| - 1) 0` entries, where the partitions are the
ones formed after epsilon-clearing and rounding. -/
theorem settlement_length_bound (b : List (String × ℚ)) :
    ((min_cash_flow_settlements b).length : ℤ)
      ≤ max (((debtorsOf b).length : ℤ) + ((creditorsOf b).length : ℤ) - 1) 0 := by
  by_cases hc : creditorsOf b = [] ∨ debtorsOf b = []
  · rw [solver_def, if_pos hc]
    simp
  · rw [solver_def, if_neg hc]
    push_neg at hc
    have hcl : 0 < (creditorsOf b).length := List.length_pos.mpr hc.1
    have hdl : 0 < (debtorsOf b).length := List.length_pos.mpr hc.2
    have hg : (initState b).i < (initState b).debtors.length ∧
        (initState b).j < (initState b).creditors.length := by
      constructor
      · show 0 < (sortDesc (debtorsOf b)).length
        rw [sortDesc_length]
        exact hdl
      · show 0 < (sortDesc (creditorsOf b)).length
        rw [sortDesc_length]
        exact hcl
    have hlen := settleRun_res_length
      ((sortDesc (debtorsOf b)).length + (sortDesc (creditorsOf b)).length)
      (initState b) (initState_inv b) hg
    have h1 : (initState b).debtors.length = (debtorsOf b).length := sortDesc_length _
    have h2 : (initState b).creditors.length = (creditorsOf b).length := sortDesc_length _
    have h3 : (initState b).res.length = 0 := rfl
    have h4 : (initState b).i = 0 := rfl
    have h5 : (initState b).j = 0 := rfl
    rw [h1, h2, h3, h4, h5] at hlen
    rw [le_max_iff]
    left
    push_cast
    omega

/-- C6: the matching loop terminates after at most `|debtors| + |creditors|`
iterations: running the loop with any fuel at least that bound yields the
same final state, and in particular the solver's fuel is sufficient. -/
theorem settle_loop_terminates (b : List (String × ℚ)) (n : ℕ)
    (h : (debtorsOf b).length + (creditorsOf b).length ≤ n) :
    settleRun n (initState b)
      = settleRun ((debtorsOf b).length + (creditorsOf b).length) (initState b) := by
  have hbound : (initState b).debtors.length + (initState b).creditors.length ≤
      ((debtorsOf b).length + (creditorsOf b).length) + (initState b).i + (initState b).j := by
    have h1 : (initState b).debtors.length = (debtorsOf b).length := sortDesc_length _
    have h2 : (initState b).creditors.length = (creditorsOf b).length := sortDesc_length _
    have h4 : (initState b).i = 0 := rfl
    have h5 : (initState b).j = 0 := rfl
    omega
  have hng := settleRun_not_guard ((debtorsOf b).length + (creditorsOf b).length)
    (initState b) (initState_inv b) hbound
  rw [show n = ((debtorsOf b).length + (creditorsOf b).length)
      + (n - ((debtorsOf b).length + (creditorsOf b).length)) by omega]
  rw [settleRun_add]
  exact settleRun_of_not_guard _ hng

/-- Witness for C6 at a concrete input. -/
theorem settle_loop_terminates_witness :
    (debtorsOf [("A", (-25 : ℚ)), ("B", 10), ("C", 10), ("D", 5)]).length
        + (creditorsOf [("A", (-25 : ℚ)), ("B", 10), ("C", 10), ("D", 5)]).length ≤ 5 ∧
      settleRun 5 (initState [("A", (-25 : ℚ)), ("B", 10), ("C", 10), ("D", 5)])
        = settleRun ((debtorsOf [("A", (-25 : ℚ)), ("B", 10), ("C", 10), ("D", 5)]).length
            + (creditorsOf [("A", (-25 : ℚ)), ("B", 10), ("C", 10), ("D", 5)]).length)
          (initState [("A", (-25 : ℚ)), ("B", 10), ("C", 10), ("D", 5)]) :=
  ⟨by decide, settle_loop_terminates [("A", (-25 : ℚ)), ("B", 10), ("C", 10), ("D", 5)] 5
    (by decide)⟩

/-! ### Claim theorems: empty results -/

theorem cleanValue_eq_zero {v : ℚ} (h : |v| < eps) : cleanValue v = 0 :=
  if_pos h

/-- C3 as stated fails at the boundary: with both balances at exactly 0.01 in
magnitude — within 0.01 of zero — the solver does settle them, because the
code clears only balances strictly below the epsilon. -/
theorem solve_empty_cases_cx :
    (∀ kv ∈ [("A", (-1/100 : ℚ)), ("B", (1/100 : ℚ))], |kv.2| ≤ eps) ∧
      min_cash_flow_settlements [("A", (-1/100 : ℚ)), ("B", (1/100 : ℚ))] ≠ [] := by
  decide

/-- C3 amended: if every balance is strictly within 0.01 of zero, or all
balances are weakly nonnegative (covering the empty and only-creditors
cases), or all weakly nonpositive (only-debtors), the solver returns the
empty sequence. -/
theorem solve_empty_cases (b : List (String × ℚ)) :
    ((∀ kv ∈ b, |kv.2| < eps) → min_cash_flow_settlements b = []) ∧
    ((∀ kv ∈ b, 0 ≤ kv.2) → min_cash_flow_settlements b = []) ∧
    ((∀ kv ∈ b, kv.2 ≤ 0) → min_cash_flow_settlements b = []) := by
  refine ⟨fun h => ?_, fun h => ?_, fun h => ?_⟩
  · have hcred : creditorsOf b = [] := by
      unfold creditorsOf
      rw [List.filter_eq_nil]
      intro p hp
      obtain ⟨v, hv, hp2⟩ := mem_cleanBalances.mp hp
      have hp3 : p.2 = cleanValue v := hp2
      rw [hp3, cleanValue_eq_zero (h (p.1, v) hv)]
      simp
    rw [solver_def, if_pos (Or.inl hcred)]
  · have hdebt : debtorsOf b = [] := by
      unfold debtorsOf
      rw [List.map_eq_nil, List.filter_eq_nil]
      intro p hp
      obtain ⟨v, hv, hp2⟩ := mem_cleanBalances.mp hp
      have hp3 : p.2 = cleanValue v := hp2
      have : 0 ≤ p.2 := by
        rw [hp3]
        exact cleanValue_nonneg (h (p.1, v) hv)
      simpa using not_lt.mpr this
    rw [solver_def, if_pos (Or.inr hdebt)]
  · have hcred : creditorsOf b = [] := by
      unfold creditorsOf
      rw [List.filter_eq_nil]
      intro p hp
      obtain ⟨v, hv, hp2⟩ := mem_cleanBalances.mp hp
      have hp3 : p.2 = cleanValue v := hp2
      have : p.2 ≤ 0 := by
        rw [hp3]
        exact cleanValue_nonpos (h (p.1, v) hv)
      simpa using not_lt.mpr this
    rw [solver_def, if_pos (Or.inl hcred)]

/-- Witness for C3 (amended) at the spec's own examples plus a noise-only
input. -/
theorem solve_empty_cases_witness :
    min_cash_flow_settlements [("A", (1/250 : ℚ)), ("B", (-1/250 : ℚ))] = [] ∧
    min_cash_flow_settlements [("A", (10 : ℚ)), ("B", 0)] = [] ∧
    min_cash_flow_settlements [("A", (-10 : ℚ))] = [] :=
  ⟨(solve_empty_cases [("A", (1/250 : ℚ)), ("B", (-1/250 : ℚ))]).1 (by decide),
    (solve_empty_cases [("A", (10 : ℚ)), ("B", 0)]).2.1 (by decide),
    (solve_empty_cases [("A", (-10 : ℚ))]).2.2 (by decide)⟩

/-! ### Per-member accounting -/

theorem SettleInv.d_nonneg {s : SettleState} (inv : SettleInv s) :
    ∀ p ∈ s.debtors, 0 ≤ p.2 := by
  obtain ⟨A, B, hde, _, hA, hB⟩ := inv.dSplit
  intro p hp
  rw [hde] at hp
  rcases List.mem_append.mp hp with h1 | h1
  · exact (hA p h1).1
  · have := hB p h1
    have heps : (0 : ℚ) < eps := by norm_num [eps]
    linarith

theorem SettleInv.c_nonneg {s : SettleState} (inv : SettleInv s) :
    ∀ p ∈ s.creditors, 0 ≤ p.2 := by
  obtain ⟨A, B, hce, _, hA, hB⟩ := inv.cSplit
  intro p hp
  rw [hce] at hp
  rcases List.mem_append.mp hp with h1 | h1
  · exact (hA p h1).1
  · have := hB p h1
    have heps : (0 : ℚ) < eps := by norm_num [eps]
    linarith

theorem nameAmt_eq_zero_of_not_mem {l : List (String × ℚ)} {nm : String}
    (h : nm ∉ l.map Prod.fst) : nameAmt l nm = 0 := by
  induction l with
  | nil => rfl
  | cons kv l ih =>
    rw [List.map_cons] at h
    simp only [nameAmt]
    rw [if_neg (fun he => h (List.mem_cons.mpr (Or.inl he.symm))),
      ih (fun he => h (List.mem_cons.mpr (Or.inr he)))]
    ring

theorem debtorsOf_names_subset {l : List (String × ℚ)} {nm : String}
    (h : nm ∈ (debtorsOf l).map Prod.fst) : nm ∈ l.map Prod.fst := by
  obtain ⟨p, hp, hp1⟩ := List.mem_map.mp h
  obtain ⟨w, hw, _, _⟩ := mem_debtorsOf.mp hp
  rw [← hp1]
  rw [← cleanBalances_keys]
  exact List.mem_map.mpr ⟨(p.1, w), hw, rfl⟩

theorem creditorsOf_names_subset {l : List (String × ℚ)} {nm : String}
    (h : nm ∈ (creditorsOf l).map Prod.fst) : nm ∈ l.map Prod.fst := by
  obtain ⟨p, hp, hp1⟩ := List.mem_map.mp h
  obtain ⟨hw, _⟩ := mem_creditorsOf.mp hp
  rw [← hp1]
  rw [← cleanBalances_keys]
  exact List.mem_map.mpr ⟨p, hw, rfl⟩

theorem debtorsOf_cons (p : String × ℚ) (bs : List (String × ℚ)) :
    debtorsOf (p :: bs)
      = (if cleanValue p.2 < 0 then [(p.1, -(cleanValue p.2))] else []) ++ debtorsOf bs := by
  unfold debtorsOf cleanBalances
  simp only [List.map_cons, List.filter_cons]
  by_cases h : cleanValue p.2 < 0
  · simp [h]
  · simp [h]

theorem creditorsOf_cons (p : String × ℚ) (bs : List (String × ℚ)) :
    creditorsOf (p :: bs)
      = (if 0 < cleanValue p.2 then [(p.1, cleanValue p.2)] else []) ++ creditorsOf bs := by
  unfold creditorsOf cleanBalances
  simp only [List.map_cons, List.filter_cons]
  by_cases h : 0 < cleanValue p.2
  · simp [h]
  · simp [h]

theorem nameAmt_debtorsOf {b : List (String × ℚ)} (h : (b.map Prod.fst).Nodup)
    {k : String} {v : ℚ} (hkv : (k, v) ∈ b) :
    nameAmt (debtorsOf b) k = if cleanValue v < 0 then -(cleanValue v) else 0 := by
  induction b with
  | nil => cases hkv
  | cons p bs ih =>
    rw [List.map_cons, List.nodup_cons] at h
    rw [debtorsOf_cons, nameAmt_append]
    rcases List.mem_cons.mp hkv with h1 | h1
    · have hk : k = p.1 := by rw [← h1]
      have hv : v = p.2 := by rw [← h1]
      have htail : nameAmt (debtorsOf bs) k = 0 := by
        apply nameAmt_eq_zero_of_not_mem
        intro hmem
        exact h.1 (hk ▸ debtorsOf_names_subset hmem)
      rw [htail, hv]
      by_cases hneg : cleanValue p.2 < 0
      · rw [if_pos hneg, if_pos hneg]
        simp [nameAmt, hk]
      · rw [if_neg hneg, if_neg hneg]
        simp [nameAmt]
    · have hk : k ≠ p.1 := by
        intro he
        apply h.1
        rw [← he]
        exact List.mem_map.mpr ⟨(k, v), h1, rfl⟩
      have hhead : nameAmt (if cleanValue p.2 < 0 then [(p.1, -(cleanValue p.2))] else []) k
          = 0 := by
        split_ifs
        · simp only [nameAmt]
          rw [if_neg (fun he : p.1 = k => hk he.symm)]
          norm_num
        · rfl
      rw [hhead, ih h.2 h1]
      ring

theorem nameAmt_creditorsOf {b : List (String × ℚ)} (h : (b.map Prod.fst).Nodup)
    {k : String} {v : ℚ} (hkv : (k, v) ∈ b) :
    nameAmt (creditorsOf b) k = if 0 < cleanValue v then cleanValue v else 0 := by
  induction b with
  | nil => cases hkv
  | cons p bs ih =>
    rw [List.map_cons, List.nodup_cons] at h
    rw [creditorsOf_cons, nameAmt_append]
    rcases List.mem_cons.mp hkv with h1 | h1
    · have hk : k = p.1 := by rw [← h1]
      have hv : v = p.2 := by rw [← h1]
      have htail : nameAmt (creditorsOf bs) k = 0 := by
        apply nameAmt_eq_zero_of_not_mem
        intro hmem
        exact h.1 (hk ▸ creditorsOf_names_subset hmem)
      rw [htail, hv]
      by_cases hpos : 0 < cleanValue p.2
      · rw [if_pos hpos, if_pos hpos]
        simp [nameAmt, hk]
      · rw [if_neg hpos, if_neg hpos]
        simp [nameAmt]
    · have hk : k ≠ p.1 := by
        intro he
        apply h.1
        rw [← he]
        exact List.mem_map.mpr ⟨(k, v), h1, rfl⟩
      have hhead : nameAmt (if 0 < cleanValue p.2 then [(p.1, cleanValue p.2)] else []) k
          = 0 := by
        split_ifs
        · simp only [nameAmt]
          rw [if_neg (fun he : p.1 = k => hk he.symm)]
          norm_num
        · rfl
      rw [hhead, ih h.2 h1]
      ring

/-- C10's second inequality fails as literally stated for members on the
debtor side: a pure debtor receives nothing as creditor, but its
cleaned-and-rounded balance is negative, so `0 ≤ balance` is false. -/
theorem no_overpayment_cx :
    creditorTotal (min_cash_flow_settlements [("A", (-10 : ℚ)), ("B", (10 : ℚ))]) ("A") = 0 ∧
      ¬ (creditorTotal (min_cash_flow_settlements [("A", (-10 : ℚ)), ("B", (10 : ℚ))]) ("A")
        ≤ cleanValue (-10)) := by
  decide

/-- C10 amended: under the dict invariant (distinct keys), no member
over-pays or over-receives — for every member, the total it pays as debtor
and the total it receives as creditor are each bounded by the absolute value
of its cleaned-and-rounded input balance. -/
theorem no_overpayment (b : List (String × ℚ)) (h : (b.map Prod.fst).Nodup) :
    ∀ kv ∈ b, debtorTotal (min_cash_flow_settlements b) kv.1 ≤ |cleanValue kv.2| ∧
      creditorTotal (min_cash_flow_settlements b) kv.1 ≤ |cleanValue kv.2| := by
  intro kv hkv
  have hkv2 : (kv.1, kv.2) ∈ b := by simpa using hkv
  by_cases hc : creditorsOf b = [] ∨ debtorsOf b = []
  · rw [solver_def, if_pos hc]
    constructor
    · show (0 : ℚ) ≤ _
      exact abs_nonneg _
    · show (0 : ℚ) ≤ _
      exact abs_nonneg _
  · rw [solver_def, if_neg hc]
    obtain ⟨invF, _, _, _, _, _, ih6, ih7⟩ :=
      settleRun_facts ((sortDesc (debtorsOf b)).length + (sortDesc (creditorsOf b)).length)
        (initState b) (initState_inv b)
    have h6 := ih6 kv.1
    have h7 := ih7 kv.1
    have hd0 : debtorTotal (initState b).res kv.1 = 0 := rfl
    have hc0 : creditorTotal (initState b).res kv.1 = 0 := rfl
    have hdinit : nameAmt (initState b).debtors kv.1 = nameAmt (debtorsOf b) kv.1 :=
      nameAmt_perm (sortDesc_perm _) _
    have hcinit : nameAmt (initState b).creditors kv.1 = nameAmt (creditorsOf b) kv.1 :=
      nameAmt_perm (sortDesc_perm _) _
    rw [hd0, hdinit, nameAmt_debtorsOf h hkv2] at h6
    rw [hc0, hcinit, nameAmt_creditorsOf h hkv2] at h7
    have hdpos := nameAmt_nonneg invF.d_nonneg kv.1
    have hcpos := nameAmt_nonneg invF.c_nonneg kv.1
    constructor
    · by_cases hneg : cleanValue kv.2 < 0
      · rw [if_pos hneg] at h6
        rw [abs_of_neg hneg]
        linarith
      · rw [if_neg hneg] at h6
        have := abs_nonneg (cleanValue kv.2)
        linarith
    · by_cases hpos : 0 < cleanValue kv.2
      · rw [if_pos hpos] at h7
        rw [abs_of_pos hpos]
        linarith
      · rw [if_neg hpos] at h7
        have := abs_nonneg (cleanValue kv.2)
        linarith

/-- Witness for C10 (amended) at a concrete input. -/
theorem no_overpayment_witness :
    (([("A", (-10 : ℚ)), ("B", (10 : ℚ))].map Prod.fst).Nodup ∧
      ("A", (-10 : ℚ)) ∈ [("A", (-10 : ℚ)), ("B", (10 : ℚ))]) ∧
    (debtorTotal (min_cash_flow_settlements [("A", (-10 : ℚ)), ("B", (10 : ℚ))]) ("A")
        ≤ |cleanValue (-10)| ∧
      creditorTotal (min_cash_flow_settlements [("A", (-10 : ℚ)), ("B", (10 : ℚ))]) ("A")
        ≤ |cleanValue (-10)|) :=
  ⟨⟨by decide, by decide⟩,
    no_overpayment [("A", (-10 : ℚ)), ("B", (10 : ℚ))] (by decide)
      ("A", (-10 : ℚ)) (by decide)⟩

/-! ### Conservation -/

theorem amtSum_nonneg {l : List (String × ℚ)} (h : ∀ p ∈ l, 0 ≤ p.2) :
    0 ≤ amtSum l := by
  induction l with
  | nil => simp [amtSum]
  | cons kv l ih =>
    rw [amtSum_cons]
    have h1 := h kv (List.mem_cons_self kv l)
    have h2 := ih (fun p hp => h p (List.mem_cons_of_mem kv hp))
    linarith

theorem amtSum_le_eps_mul {l : List (String × ℚ)} (h : ∀ p ∈ l, p.2 ≤ eps) :
    amtSum l ≤ eps * l.length := by
  induction l with
  | nil => simp [amtSum]
  | cons kv l ih =>
    rw [amtSum_cons, List.length_cons]
    have h1 := h kv (List.mem_cons_self kv l)
    have h2 := ih (fun p hp => h p (List.mem_cons_of_mem kv hp))
    push_cast
    ring_nf
    ring_nf at h2
    linarith

theorem SettleInv.d_all_le {s : SettleState} (inv : SettleInv s)
    (h : s.debtors.length ≤ s.i) : ∀ p ∈ s.debtors, p.2 ≤ eps := by
  obtain ⟨A, B, hde, hi, hA, _⟩ := inv.dSplit
  have hB : B = [] := by
    have := congrArg List.length hde
    rw [List.length_append] at this
    have hlen : B.length = 0 := by omega
    exact List.length_eq_zero.mp hlen
  intro p hp
  rw [hde, hB, List.append_nil] at hp
  exact (hA p hp).2

theorem SettleInv.c_all_le {s : SettleState} (inv : SettleInv s)
    (h : s.creditors.length ≤ s.j) : ∀ p ∈ s.creditors, p.2 ≤ eps := by
  obtain ⟨A, B, hce, hj, hA, _⟩ := inv.cSplit
  have hB : B = [] := by
    have := congrArg List.length hce
    rw [List.length_append] at this
    have hlen : B.length = 0 := by omega
    exact List.length_eq_zero.mp hlen
  intro p hp
  rw [hce, hB, List.append_nil] at hp
  exact (hA p hp).2

theorem amtSum_map_negSnd (l : List (String × ℚ)) :
    amtSum (l.map (fun kv => (kv.1, -kv.2))) = -amtSum l := by
  induction l with
  | nil => simp [amtSum]
  | cons kv l ih =>
    simp only [List.map_cons, amtSum_cons, ih]
    ring

theorem sum_map_negSnd (l : List (String × ℚ)) :
    (l.map (fun kv => -kv.2)).sum = -amtSum l := by
  induction l with
  | nil => simp [amtSum]
  | cons kv l ih =>
    simp only [List.map_cons, List.sum_cons, amtSum_cons, ih]
    ring

theorem amtSum_split (l : List (String × ℚ)) :
    amtSum l = amtSum (l.filter (fun kv => decide (0 < kv.2)))
      + amtSum (l.filter (fun kv => decide (kv.2 < 0))) := by
  induction l with
  | nil => simp [amtSum]
  | cons kv l ih =>
    rcases lt_trichotomy kv.2 0 with h | h | h
    · have h2 : ¬ (0 : ℚ) < kv.2 := by linarith
      simp only [List.filter_cons, decide_eq_true_eq, h, h2, if_true, if_false,
        amtSum_cons, ih]
      ring
    · have h2 : ¬ (0 : ℚ) < kv.2 := by rw [h]; exact lt_irrefl 0
      have h3 : ¬ kv.2 < (0 : ℚ) := by rw [h]; exact lt_irrefl 0
      simp only [List.filter_cons, decide_eq_true_eq, h2, h3, if_false, amtSum_cons, ih]
      rw [h]
      ring
    · have h3 : ¬ kv.2 < (0 : ℚ) := by linarith
      simp only [List.filter_cons, decide_eq_true_eq, h, h3, if_true, if_false,
        amtSum_cons, ih]
      ring

theorem amtSum_cents {l : List (String × ℚ)} (h : ∀ p ∈ l, IsCents p.2) :
    IsCents (amtSum l) := by
  unfold amtSum
  apply IsCents.sum
  intro v hv
  obtain ⟨p, hp, rfl⟩ := List.mem_map.mp hv
  exact h p hp

theorem posTotal_def (b : List (String × ℚ)) :
    posTotal b = round2 (amtSum (b.filter (fun kv => decide (0 < kv.2)))) := rfl

theorem negTotal_def (b : List (String × ℚ)) :
    negTotal b = round2 (-(amtSum (b.filter (fun kv => decide (kv.2 < 0))))) := by
  unfold negTotal
  rw [sum_map_negSnd]

/-- C1 as stated fails for unbalanced inputs, which the claim quantifies
over: with `{A: 100.0, B: -1.0}` the settled total is 1.0 but the rounded
sum of positive balances is 100.0. -/
theorem conservation_cx :
    ¬ (|resAmtSum (min_cash_flow_settlements [("A", (100 : ℚ)), ("B", (-1 : ℚ))])
      - posTotal [("A", (100 : ℚ)), ("B", (-1 : ℚ))]| ≤ eps) := by
  decide

/-- C1 amended: for every input mapping of exact two-decimal balances that
sums to zero, the rounded positive and negative totals agree, and the sum of
the settled amounts equals each of them to within `0.01·(|debtors| + |creditors|)`
(one cent per work-list entry can be stranded by the epsilon cursor
advancement; the per-member bound `0.01` of the claim is only per entry). -/
theorem conservation (b : List (String × ℚ)) (hC : ∀ kv ∈ b, IsCents kv.2)
    (hbal : amtSum b = 0) :
    posTotal b = negTotal b ∧
    |resAmtSum (min_cash_flow_settlements b) - posTotal b|
      ≤ eps * (((debtorsOf b).length : ℚ) + ((creditorsOf b).length : ℚ)) ∧
    |resAmtSum (min_cash_flow_settlements b) - negTotal b|
      ≤ eps * (((debtorsOf b).length : ℚ) + ((creditorsOf b).length : ℚ)) := by
  have hclean : cleanBalances b = b := cleanBalances_eq_self hC
  have hcensP : IsCents (amtSum (b.filter (fun kv => decide (0 < kv.2)))) :=
    amtSum_cents (fun p hp => hC p (List.mem_filter.mp hp).1)
  have hcensN : IsCents (amtSum (b.filter (fun kv => decide (kv.2 < 0)))) :=
    amtSum_cents (fun p hp => hC p (List.mem_filter.mp hp).1)
  have hsplit := amtSum_split b
  rw [hbal] at hsplit
  have hPN : amtSum (b.filter (fun kv => decide (0 < kv.2)))
      = -(amtSum (b.filter (fun kv => decide (kv.2 < 0)))) := by linarith
  have hpos : posTotal b = amtSum (b.filter (fun kv => decide (0 < kv.2))) := by
    rw [posTotal_def]
    exact round2_eq_self hcensP
  have hneg : negTotal b = amtSum (b.filter (fun kv => decide (0 < kv.2))) := by
    rw [negTotal_def, ← hPN]
    exact round2_eq_self hcensP
  have hcredEq : creditorsOf b = b.filter (fun kv => decide (0 < kv.2)) := by
    unfold creditorsOf
    rw [hclean]
  have hdebtEq : debtorsOf b
      = (b.filter (fun kv => decide (kv.2 < 0))).map (fun kv => (kv.1, -kv.2)) := by
    unfold debtorsOf
    rw [hclean]
  have hdebtSum : amtSum (debtorsOf b) = amtSum (b.filter (fun kv => decide (0 < kv.2))) := by
    rw [hdebtEq, amtSum_map_negSnd, ← hPN]
  have hcredSum : amtSum (creditorsOf b) = amtSum (b.filter (fun kv => decide (0 < kv.2))) := by
    rw [hcredEq]
  refine ⟨hpos.trans hneg.symm, ?_⟩
  by_cases hc : creditorsOf b = [] ∨ debtorsOf b = []
  · have hP0 : amtSum (b.filter (fun kv => decide (0 < kv.2))) = 0 := by
      rcases hc with h | h
      · rw [← hcredSum, h]
        rfl
      · rw [← hdebtSum, h]
        rfl
    rw [solver_def, if_pos hc]
    have hr : resAmtSum ([] : List (String × String × ℚ)) = 0 := rfl
    rw [hr, hpos, hneg, hP0]
    have hnn : (0:ℚ) ≤ eps * (((debtorsOf b).length : ℚ) + ((creditorsOf b).length : ℚ)) := by
      have : (0:ℚ) ≤ ((debtorsOf b).length : ℚ) + ((creditorsOf b).length : ℚ) := by
        positivity
      have heps : (0:ℚ) ≤ eps := by norm_num [eps]
      positivity
    constructor <;> simpa using hnn
  · rw [solver_def, if_neg hc]
    obtain ⟨invF, hdn, hcn, _, ih4, ih5, _, _⟩ :=
      settleRun_facts ((sortDesc (debtorsOf b)).length + (sortDesc (creditorsOf b)).length)
        (initState b) (initState_inv b)
    have hres0 : resAmtSum (initState b).res = 0 := rfl
    have hdi : amtSum (initState b).debtors = amtSum (debtorsOf b) :=
      amtSum_perm (sortDesc_perm _)
    have hci : amtSum (initState b).creditors = amtSum (creditorsOf b) :=
      amtSum_perm (sortDesc_perm _)
    rw [hres0, hdi, hdebtSum] at ih4
    rw [hres0, hci, hcredSum] at ih5
    have hLD : (settleRun ((sortDesc (debtorsOf b)).length + (sortDesc (creditorsOf b)).length)
        (initState b)).debtors.length = (debtorsOf b).length := by
      have := congrArg List.length hdn
      simpa [initState, sortDesc_length] using this
    have hLC : (settleRun ((sortDesc (debtorsOf b)).length + (sortDesc (creditorsOf b)).length)
        (initState b)).creditors.length = (creditorsOf b).length := by
      have := congrArg List.length hcn
      simpa [initState, sortDesc_length] using this
    have hbound : (initState b).debtors.length + (initState b).creditors.length ≤
        ((sortDesc (debtorsOf b)).length + (sortDesc (creditorsOf b)).length)
          + (initState b).i + (initState b).j := by
      have h4 : (initState b).i = 0 := rfl
      have h5 : (initState b).j = 0 := rfl
      have h6 : (initState b).debtors.length = (sortDesc (debtorsOf b)).length := rfl
      have h7 : (initState b).creditors.length = (sortDesc (creditorsOf b)).length := rfl
      omega
    have hng := settleRun_not_guard
      ((sortDesc (debtorsOf b)).length + (sortDesc (creditorsOf b)).length)
      (initState b) (initState_inv b) hbound
    have hdnn : 0 ≤ amtSum (settleRun ((sortDesc (debtorsOf b)).length
        + (sortDesc (creditorsOf b)).length) (initState b)).debtors :=
      amtSum_nonneg invF.d_nonneg
    have hcnn : 0 ≤ amtSum (settleRun ((sortDesc (debtorsOf b)).length
        + (sortDesc (creditorsOf b)).length) (initState b)).creditors :=
      amtSum_nonneg invF.c_nonneg
    have hepsnn : (0:ℚ) ≤ eps := by norm_num [eps]
    have hkey : amtSum (settleRun ((sortDesc (debtorsOf b)).length
        + (sortDesc (creditorsOf b)).length) (initState b)).debtors
        ≤ eps * (((debtorsOf b).length : ℚ) + ((creditorsOf b).length : ℚ)) := by
      rw [not_and_or, not_lt, not_lt] at hng
      rcases hng with hng | hng
      · have hle := amtSum_le_eps_mul (invF.d_all_le hng)
        rw [hLD] at hle
        have : eps * ((debtorsOf b).length : ℚ)
            ≤ eps * (((debtorsOf b).length : ℚ) + ((creditorsOf b).length : ℚ)) := by
          have h0 : (0:ℚ) ≤ ((creditorsOf b).length : ℚ) := by positivity
          nlinarith
        linarith
      · have hle := amtSum_le_eps_mul (invF.c_all_le hng)
        rw [hLC] at hle
        have heq : amtSum (settleRun ((sortDesc (debtorsOf b)).length
            + (sortDesc (creditorsOf b)).length) (initState b)).debtors
            = amtSum (settleRun ((sortDesc (debtorsOf b)).length
            + (sortDesc (creditorsOf b)).length) (initState b)).creditors := by
          linarith
        have : eps * ((creditorsOf b).length : ℚ)
            ≤ eps * (((debtorsOf b).length : ℚ) + ((creditorsOf b).length : ℚ)) := by
          have h0 : (0:ℚ) ≤ ((debtorsOf b).length : ℚ) := by positivity
          nlinarith
        linarith
    constructor
    · rw [hpos]
      rw [abs_le]
      constructor <;> linarith
    · rw [hneg]
      rw [abs_le]
      constructor <;> linarith

/-- Witness for C1 (amended) at a concrete balanced cent-exact input. -/
theorem conservation_witness :
    ((∀ kv ∈ [("A", (-10 : ℚ)), ("B", (10 : ℚ))], IsCents kv.2) ∧
      amtSum [("A", (-10 : ℚ)), ("B", (10 : ℚ))] = 0) ∧
    (posTotal [("A", (-10 : ℚ)), ("B", (10 : ℚ))]
        = negTotal [("A", (-10 : ℚ)), ("B", (10 : ℚ))] ∧
      |resAmtSum (min_cash_flow_settlements [("A", (-10 : ℚ)), ("B", (10 : ℚ))])
          - posTotal [("A", (-10 : ℚ)), ("B", (10 : ℚ))]|
        ≤ eps * (((debtorsOf [("A", (-10 : ℚ)), ("B", (10 : ℚ))]).length : ℚ)
            + ((creditorsOf [("A", (-10 : ℚ)), ("B", (10 : ℚ))]).length : ℚ)) ∧
      |resAmtSum (min_cash_flow_settlements [("A", (-10 : ℚ)), ("B", (10 : ℚ))])
          - negTotal [("A", (-10 : ℚ)), ("B", (10 : ℚ))]|
        ≤ eps * (((debtorsOf [("A", (-10 : ℚ)), ("B", (10 : ℚ))]).length : ℚ)
            + ((creditorsOf [("A", (-10 : ℚ)), ("B", (10 : ℚ))]).length : ℚ))) :=
  ⟨⟨by decide, by decide⟩,
    conservation [("A", (-10 : ℚ)), ("B", (10 : ℚ))] (by decide) (by decide)⟩


theorem splits_settleRun_eq : Splits.settleRun = settleRun := by
  funext fuel
  induction fuel with
  | zero => rfl
  | succ n ih =>
    funext s
    show (if s.i < s.debtors.length ∧ s.j < s.creditors.length then
        Splits.settleRun n (Splits.settleStep s) else s) = _
    rw [ih]
    rfl

/-- C9: the two settlement implementations, `min_cash_flow_settlements` in
`app/utils/helpers.py` and `_min_cash_flow_settlements` in
`app/commands/splits.py`, are extensionally equal: on every input mapping
they return the same settlement sequence. -/
theorem splits_impl_eq_helpers_impl (b : List (String × ℚ)) :
    Splits.min_cash_flow_settlements b = min_cash_flow_settlements b := by
  show (if Splits.creditorsOf b = [] ∨ Splits.debtorsOf b = [] then []
    else (Splits.settleRun
      ((Splits.sortDesc (Splits.debtorsOf b)).length
        + (Splits.sortDesc (Splits.creditorsOf b)).length)
      (Splits.initState b)).res) = _
  rw [splits_settleRun_eq]
  rfl


theorem sum_filter_eq_sum_ite {α : Type} (l : List α) (p : α → Bool) (f : α → ℚ) :
    ((l.filter p).map f).sum = (l.map (fun a => if p a = true then f a else 0)).sum := by
  induction l with
  | nil => rfl
  | cons a l ih =>
    rw [List.filter_cons, List.map_cons, List.sum_cons]
    by_cases h : p a = true
    · rw [if_pos h, if_pos h, List.map_cons, List.sum_cons, ih]
    · rw [if_neg h, if_neg h, ih]
      ring

/-- C5 as stated fails: a single recorded repayment moves the payer's net
balance up in the code, but down under the claim's formula, which swaps
repayments made and repayments received. -/
theorem net_formula_cx :
    net ⟨[], [], [⟨1, 2, 10, 7⟩]⟩ 7 1 = 10 ∧
    net_balance ⟨[], [], [⟨1, 2, 10, 7⟩]⟩ 7 1 = 10 ∧
    claimNetFormula ⟨[], [], [⟨1, 2, 10, 7⟩]⟩ 7 1 = -10 ∧
    net ⟨[], [], [⟨1, 2, 10, 7⟩]⟩ 7 1
      ≠ claimNetFormula ⟨[], [], [⟨1, 2, 10, 7⟩]⟩ 7 1 := by
  refine ⟨by decide, ?_, by decide, by decide⟩
  show round2 _ = 10
  norm_num [total_paid, total_owed, repaid, received]
  decide

/-- C5 amended: both surrounding layers compute the net balance as
`(total paid + total repayments made) − (total owed-via-splits + total
received-as-repayment)`; `cli.py` additionally rounds it to two decimals. -/
theorem net_formula (L : Ledger) (g m : ℕ) :
    net L g m = amendedNetFormula L g m ∧
    net_balance L g m = round2 (amendedNetFormula L g m) := by
  have key : net L g m = amendedNetFormula L g m := by
    unfold net amendedNetFormula total_paid total_owed repaid received
    rw [sum_filter_eq_sum_ite, sum_filter_eq_sum_ite, sum_filter_eq_sum_ite,
      sum_filter_eq_sum_ite]
    simp only [decide_eq_true_eq, Bool.and_eq_true]
    ring_nf
  exact ⟨key, by rw [net_balance, ← key]; rfl⟩

end SplitPay
